import Mathlib

/-!
Verification of the streaming code-block parser and file reconciliation logic
of the ai-code-blocks library (TypeScript sources under src/).

The TypeScript code is shallowly embedded: strings are modelled as `List Char`
wrapped into `String` at the interfaces, the character-by-character buffer
processor of `StreamingParser.processBuffer` (src/parser.ts) becomes a fueled
step function, mutable `Map`s become association lists, asynchronous storage
calls become explicit `Except`-valued functions whose attempted calls and
swallowed errors are recorded.
-/

/-- `Config` from src/types.ts: the five user-supplied tag strings. -/
structure Config where
  startTag : String
  endTag : String
  thinkingTag : String
  writeTag : String
  modifyTag : String
deriving DecidableEq

/-- `DEFAULT_CONFIG` from src/types.ts. -/
def DEFAULT_CONFIG : Config :=
  { startTag := "<ablo-code>"
    endTag := "</ablo-code>"
    thinkingTag := "ablo-thinking"
    writeTag := "ablo-write"
    modifyTag := "ablo-modify" }

/-- `ParsedMessage` from src/types.ts. -/
structure ParsedMessage where
  chatContent : String
  codeContent : String
  hasCodeStarted : Bool
  hasCodeEnded : Bool
deriving DecidableEq

/-- The JavaScript regular-expression class `\s` (also the character set removed
by `String.prototype.trim`): ECMAScript WhiteSpace plus LineTerminator. -/
def isJsWhitespace (c : Char) : Bool :=
  let n := c.toNat
  n = 32 || n = 9 || n = 10 || n = 13 || n = 11 || n = 12 ||
  n = 0xA0 || n = 0x1680 || (0x2000 ≤ n && n ≤ 0x200A) ||
  n = 0x2028 || n = 0x2029 || n = 0x202F || n = 0x205F || n = 0x3000 || n = 0xFEFF

/-- JavaScript `String.prototype.trim` on a character list. -/
def jsTrimList (l : List Char) : List Char :=
  ((l.dropWhile isJsWhitespace).reverse.dropWhile isJsWhitespace).reverse

/-- JavaScript `String.prototype.trim`. -/
def jsTrim (s : String) : String :=
  String.mk (jsTrimList s.data)

/-- Splits `hay` at the first (leftmost) occurrence of `needle`, returning the
text before the occurrence and the text after it; `none` if `needle` does not
occur.  This is the search primitive behind the lazy bodies
`([\s\S]*?)(?:CLOSE|$)` of the extraction regexes and behind
`String.prototype.includes`. -/
def splitAtFirst (needle : List Char) : List Char → Option (List Char × List Char)
  | [] => if needle = [] then some ([], []) else none
  | c :: rest =>
    if needle.isPrefixOf (c :: rest) then some ([], (c :: rest).drop needle.length)
    else (splitAtFirst needle rest).map (fun p => (c :: p.1, p.2))

/-- JavaScript `String.prototype.includes` on character lists. -/
def containsSeq (hay needle : List Char) : Bool :=
  (splitAtFirst needle hay).isSome

/-- Drops `p` from the front of `s` when `p` is a prefix, else fails. -/
def dropPre (p : List Char) (s : List Char) : Option (List Char) :=
  if p.isPrefixOf s then some (s.drop p.length) else none

/-- Parser states of the `ParserState` enum in src/parser.ts. -/
inductive PState where
  | normal
  | potentialTagStart
  | inTag
  | tagComplete
deriving DecidableEq

/-- `TokenBuffer` from src/parser.ts. -/
structure TokenBuffer where
  content : List Char
  position : Nat
  potentialTag : List Char
deriving DecidableEq

/-- The `StreamingParser` instance state (config plus mutable state and buffer). -/
structure StreamingParser where
  config : Config
  state : PState
  buffer : TokenBuffer
deriving DecidableEq

/-- The `StreamingParser` constructor: it stores the config and performs no
validation whatsoever (src/parser.ts line 23). -/
def StreamingParser.new (config : Config) : StreamingParser :=
  { config, state := PState.normal, buffer := { content := [], position := 0, potentialTag := [] } }

/-- Result of one run of the `while` loop of `processBuffer` (src/parser.ts
lines 41-108): the mutated parser state and buffer together with the loop-local
variables `chatContent`, `codeContent`, `hasCodeStarted`, `hasCodeEnded`. -/
structure LoopResult where
  state : PState
  buffer : TokenBuffer
  chat : List Char
  code : List Char
  started : Bool
  ended : Bool
deriving DecidableEq

/-- The character-processing `while` loop of `processBuffer` (src/parser.ts
lines 41-108).  The loop advances `position` by one per iteration (the
end-tag branch jumps it past the end of the buffer, modelling the
`position = length` assignment followed by `position++`), so a fuel of
`content.length + 1 - position` makes the fueled recursion exhaust the buffer
exactly as the source loop does.  The `position + 1 - startTag.length`
subtractions are the source's `position - length + 1` expressions; in every
reachable state the minuend dominates, and `Nat` truncation coincides with the
`String.prototype.substring` clamping of negative arguments. -/
def processChars (cfg : Config) : Nat → PState → TokenBuffer → List Char → List Char → Bool → Bool → LoopResult
  | 0, st, buf, chat, code, started, ended => ⟨st, buf, chat, code, started, ended⟩
  | fuel + 1, st, buf, chat, code, started, ended =>
    match buf.content.get? buf.position with
    | none => ⟨st, buf, chat, code, started, ended⟩
    | some c =>
      match st with
      | PState.normal =>
        if c = '<' then
          processChars cfg fuel PState.potentialTagStart
            { buf with position := buf.position + 1, potentialTag := ['<'] } chat code started ended
        else
          processChars cfg fuel PState.normal
            { buf with position := buf.position + 1 } (chat ++ [c]) code started ended
      | PState.potentialTagStart =>
        let pt := buf.potentialTag ++ [c]
        if pt = cfg.startTag.data then
          let beforeCodeEnd := buf.position + 1 - cfg.startTag.data.length
          processChars cfg fuel PState.inTag
            { buf with position := buf.position + 1, potentialTag := [] }
            (buf.content.take beforeCodeEnd) cfg.startTag.data true ended
        else if pt.isPrefixOf cfg.startTag.data then
          processChars cfg fuel PState.potentialTagStart
            { buf with position := buf.position + 1, potentialTag := pt } chat code started ended
        else
          processChars cfg fuel PState.normal
            { buf with position := buf.position + 1, potentialTag := [] } (chat ++ pt) code started ended
      | PState.inTag =>
        let code2 := code ++ [c]
        if c = '>' ∧ cfg.endTag.data.isSuffixOf code2 then
          let remaining := buf.content.drop (buf.position + 1)
          let rTrim := jsTrimList remaining
          let chat2 :=
            if rTrim ≠ [] then
              let chatT := jsTrimList chat
              if chatT ≠ [] then chatT ++ ['\n', '\n'] ++ rTrim else rTrim
            else chat
          processChars cfg fuel PState.tagComplete
            { buf with position := buf.content.length + 1 } chat2 code2 started true
        else
          processChars cfg fuel PState.inTag
            { buf with position := buf.position + 1 } chat code2 started ended
      | PState.tagComplete =>
        processChars cfg fuel PState.tagComplete
          { buf with position := buf.position + 1 } chat code started ended

/-- The post-loop part of `processBuffer` (src/parser.ts lines 110-147):
builds the returned `ParsedMessage` from the incomplete-state branches (lines
111-135) or the final return (lines 137-147), resetting the buffer when the
block ended. -/
def finishBuffer (r : LoopResult) : ParsedMessage × PState × TokenBuffer :=
  if r.state = PState.potentialTagStart then
    let newPos := r.buffer.position + 1 - r.buffer.potentialTag.length
    let contentBeforeTag := r.buffer.content.take newPos
    (⟨String.mk (jsTrimList contentBeforeTag), "", false, false⟩,
      PState.potentialTagStart, { r.buffer with position := newPos })
  else if r.state = PState.inTag ∧ r.ended = false then
    (⟨String.mk (jsTrimList r.chat), String.mk r.code, true, false⟩, PState.inTag, r.buffer)
  else if r.ended then
    (⟨String.mk (jsTrimList r.chat), String.mk r.code, r.started, r.ended⟩,
      PState.normal, ⟨[], 0, []⟩)
  else
    (⟨String.mk (jsTrimList r.chat), String.mk r.code, r.started, r.ended⟩, r.state, r.buffer)

/-- `processBuffer` (src/parser.ts lines 34-148): runs the character loop on
the current buffer, then finishes per the state reached. -/
def processBuffer (cfg : Config) (st : PState) (buf : TokenBuffer) :
    ParsedMessage × PState × TokenBuffer :=
  finishBuffer (processChars cfg (buf.content.length + 1 - buf.position) st buf [] [] false false)

/-- `StreamingParser.parseMessage` (src/parser.ts lines 25-31): appends the
argument to the internal buffer and processes the buffer.  Returns the parsed
message together with the mutated parser. -/
def StreamingParser.parseMessage (p : StreamingParser) (content : String) :
    ParsedMessage × StreamingParser :=
  let buf := { p.buffer with content := p.buffer.content ++ content.data }
  let r := processBuffer p.config p.state buf
  (r.1, ⟨p.config, r.2.1, r.2.2⟩)

/-- Feeds a sequence of observations to one parser instance with successive
`parseMessage` calls, returning the last call's result and the final parser.
On an empty sequence it returns an all-empty message. -/
def parseAll (p : StreamingParser) : List String → ParsedMessage × StreamingParser
  | [] => (⟨"", "", false, false⟩, p)
  | s :: rest =>
    let r := p.parseMessage s
    match rest with
    | [] => r
    | _ :: _ => parseAll r.2 rest

/-- `FileAction` from src/types.ts. -/
inductive FileAction where
  | write
  | modify
deriving DecidableEq

/-- `FileCommand` from src/types.ts: the `WriteCommand`/`ModifyCommand`
discriminated union. -/
inductive FileCommand where
  | write (filePath content : String) (isComplete : Bool)
  | modify (filePath changes content : String) (isComplete : Bool)
deriving DecidableEq

def FileCommand.action : FileCommand → FileAction
  | FileCommand.write _ _ _ => FileAction.write
  | FileCommand.modify _ _ _ _ => FileAction.modify

def FileCommand.filePath : FileCommand → String
  | FileCommand.write fp _ _ => fp
  | FileCommand.modify fp _ _ _ => fp

def FileCommand.content : FileCommand → String
  | FileCommand.write _ c _ => c
  | FileCommand.modify _ _ c _ => c

def FileCommand.changes : FileCommand → String
  | FileCommand.write _ _ _ => ""
  | FileCommand.modify _ ch _ _ => ch

def FileCommand.isComplete : FileCommand → Bool
  | FileCommand.write _ _ ic => ic
  | FileCommand.modify _ _ _ ic => ic

/-- `CodeBlock` from src/types.ts. -/
structure CodeBlock where
  messageId : String
  thinking : String
  commands : List FileCommand
  isComplete : Bool
deriving DecidableEq

/-- The literal `file_path="` of the extraction regexes. -/
def filePathLit : List Char := "file_path=\"".data

/-- The literal `changes="` of the modify-extraction regex. -/
def changesLit : List Char := "changes=\"".data

/-- The literal closing element `</TAG>` for a tag name. -/
def closeTagChars (tag : String) : List Char :=
  '<' :: '/' :: tag.data ++ ['>']

/-- `\s+`: one or more JavaScript whitespace characters.  The regex quantifier
is greedy, and since the literal that follows it in both extraction regexes
starts with a non-whitespace character, backtracking can never shorten the
run, so the maximal-run parse below is exact. -/
def parseWs1 (s : List Char) : Option (List Char) :=
  let ws := s.takeWhile isJsWhitespace
  if ws = [] then none else some (s.drop ws.length)

/-- `([^"]+)"`: a greedy nonempty run of non-quote characters followed by the
closing quote.  The run necessarily stops at the first `"`, so no backtracking
alternative exists. -/
def parseAttrQuoted1 (s : List Char) : Option (List Char × List Char) :=
  let v := s.takeWhile (fun c => c ≠ '"')
  if v = [] then none
  else
    match s.drop v.length with
    | '"' :: r2 => some (v, r2)
    | _ => none

/-- `([^"]*)"`: like `parseAttrQuoted1` but the run may be empty. -/
def parseAttrQuoted0 (s : List Char) : Option (List Char × List Char) :=
  let v := s.takeWhile (fun c => c ≠ '"')
  match s.drop v.length with
  | '"' :: r2 => some (v, r2)
  | _ => none

/-- Attempts to match the write regex
`<WRITETAG\s+file_path="([^"]+)">([\s\S]*?)(?:</WRITETAG>|$)`
(src/parser.ts lines 180-183) anchored at the start of `s`.  Returns the
emitted command and the unconsumed rest.  The lazy body stops at the first
occurrence of the closing element or at the end of input; `isComplete` is the
source's check that the matched text ends with the closing element text
(src/parser.ts lines 187-190: `content.substring(matchEnd - closeLen,
matchEnd) === close`, which inspects exactly the last characters of the
match). -/
def tryWriteAt (cfg : Config) (s : List Char) : Option (FileCommand × List Char) :=
  match dropPre ('<' :: cfg.writeTag.data) s with
  | none => none
  | some r1 =>
    match parseWs1 r1 with
    | none => none
    | some r2 =>
      match dropPre filePathLit r2 with
      | none => none
      | some r3 =>
        match parseAttrQuoted1 r3 with
        | none => none
        | some (fp, r4) =>
          match r4 with
          | '>' :: r5 =>
            let close := closeTagChars cfg.writeTag
            match splitAtFirst close r5 with
            | some (body, rest) =>
              let matchText := s.take (s.length - rest.length)
              some (FileCommand.write (String.mk fp) (String.mk (jsTrimList body))
                (close.isSuffixOf matchText), rest)
            | none =>
              some (FileCommand.write (String.mk fp) (String.mk (jsTrimList r5))
                (close.isSuffixOf s), [])
          | _ => none

/-- The optional `(?:\s+changes="([^"]*)")?` group of the modify regex followed
by the mandatory `>`.  The engine first tries to match the group; if the group
matches but `>` does not follow, it backtracks to the empty alternative, which
succeeds only when `>` stands right after the `file_path` quote. -/
def parseChangesThenGt (r4 : List Char) : Option (Option (List Char) × List Char) :=
  let grp :=
    match parseWs1 r4 with
    | none => none
    | some rw =>
      match dropPre changesLit rw with
      | none => none
      | some rc => parseAttrQuoted0 rc
  match grp with
  | some (chv, rc) =>
    match rc with
    | '>' :: r5 => some (some chv, r5)
    | _ =>
      match r4 with
      | '>' :: r5 => some (none, r5)
      | _ => none
  | none =>
    match r4 with
    | '>' :: r5 => some (none, r5)
    | _ => none

/-- Attempts to match the modify regex
`<MODIFYTAG\s+file_path="([^"]+)"(?:\s+changes="([^"]*)")?>([\s\S]*?)(?:</MODIFYTAG>|$)`
(src/parser.ts lines 205-208) anchored at the start of `s`.  A missing
`changes` group yields the empty string (`match[2] || ""`, line 220). -/
def tryModifyAt (cfg : Config) (s : List Char) : Option (FileCommand × List Char) :=
  match dropPre ('<' :: cfg.modifyTag.data) s with
  | none => none
  | some r1 =>
    match parseWs1 r1 with
    | none => none
    | some r2 =>
      match dropPre filePathLit r2 with
      | none => none
      | some r3 =>
        match parseAttrQuoted1 r3 with
        | none => none
        | some (fp, r4) =>
          match parseChangesThenGt r4 with
          | none => none
          | some (chOpt, r5) =>
            let close := closeTagChars cfg.modifyTag
            match splitAtFirst close r5 with
            | some (body, rest) =>
              let matchText := s.take (s.length - rest.length)
              some (FileCommand.modify (String.mk fp) (String.mk (chOpt.getD []))
                (String.mk (jsTrimList body)) (close.isSuffixOf matchText), rest)
            | none =>
              some (FileCommand.modify (String.mk fp) (String.mk (chOpt.getD []))
                (String.mk (jsTrimList r5)) (close.isSuffixOf s), [])

/-- Leftmost-match search: tries the anchored match at each successive start
position, as the regex engine does when advancing `lastIndex`. -/
def findMatchFrom (tryAt : List Char → Option (FileCommand × List Char)) :
    List Char → Option (FileCommand × List Char)
  | [] => tryAt []
  | c :: rest =>
    match tryAt (c :: rest) with
    | some r => some r
    | none => findMatchFrom tryAt rest

/-- The `while ((match = regex.exec(content)) !== null)` loop with a global
regex: repeatedly takes the leftmost match and resumes after it.  Every match
consumes at least the opening `<`, so `content.length + 1` fuel can never be
exhausted before the scan ends. -/
def scanCommands (tryAt : List Char → Option (FileCommand × List Char)) :
    Nat → List Char → List FileCommand
  | 0, _ => []
  | fuel + 1, s =>
    match findMatchFrom tryAt s with
    | none => []
    | some (cmd, rest) => cmd :: scanCommands tryAt fuel rest

/-- `extractWriteCommands` (src/parser.ts lines 178-201). -/
def extractWriteCommands (cfg : Config) (content : String) : List FileCommand :=
  scanCommands (tryWriteAt cfg) (content.data.length + 1) content.data

/-- `extractModifyCommands` (src/parser.ts lines 203-227). -/
def extractModifyCommands (cfg : Config) (content : String) : List FileCommand :=
  scanCommands (tryModifyAt cfg) (content.data.length + 1) content.data

/-- `extractThinking` (src/parser.ts lines 171-176): regex
`<THINKTAG>([\s\S]*?)(?:</THINKTAG>|$)`, first match, captured body trimmed,
empty string when the opening element is absent. -/
def extractThinking (cfg : Config) (content : String) : String :=
  let openT := '<' :: cfg.thinkingTag.data ++ ['>']
  match splitAtFirst openT content.data with
  | none => ""
  | some (_, after) =>
    match splitAtFirst (closeTagChars cfg.thinkingTag) after with
    | some (body, _) => String.mk (jsTrimList body)
    | none => String.mk (jsTrimList after)

/-- `StreamingParser.parseCodeBlock` (src/parser.ts lines 156-169): thinking
extraction, then all write commands followed by all modify commands, and
`isComplete = codeContent.includes(endTag)`.  The method reads only
`this.config`, so it is parametrised by the config here. -/
def StreamingParser.parseCodeBlock (cfg : Config) (codeContent : String)
    (messageId : String) : CodeBlock :=
  { messageId
    thinking := extractThinking cfg codeContent
    commands := extractWriteCommands cfg codeContent ++ extractModifyCommands cfg codeContent
    isComplete := containsSeq codeContent.data cfg.endTag.data }

/-- `FileState` from src/types.ts.  `lastModified` (a `Date`) is the opaque
clock value passed in as `now`. -/
structure FileState where
  filePath : String
  content : String
  version : Nat
  lastModified : Nat
  sourceMessageId : String
deriving DecidableEq

/-- Metadata forwarded to `StorageAdapter.saveFile`; the `sessionId`/`threadId`
field is a constant of the surrounding session and is elided. -/
structure FileMeta where
  version : Nat
  sourceMessageId : String
deriving DecidableEq

/-- JavaScript `Map.set` on an association list: replaces the value of an
existing key in place, otherwise appends the new entry at the end. -/
def setAssoc {β : Type} (t : List (String × β)) (k : String) (v : β) : List (String × β) :=
  match t with
  | [] => [(k, v)]
  | (k0, v0) :: rest => if k0 = k then (k, v) :: rest else (k0, v0) :: setAssoc rest k v

/-- A record of one attempted `storage.saveFile(path, content, metadata)` call. -/
structure SaveCall where
  filePath : String
  content : String
  meta : FileMeta
deriving DecidableEq

/-- The per-command loop of `StreamingStateManager.updateFiles`
(src/state-manager.ts lines 103-125): incomplete commands are skipped; every
complete command unconditionally builds a bumped `FileState`, stores it in the
in-place-mutated `currentFiles` map and then awaits `storage.saveFile` with no
`try`/`catch` — a storage failure therefore aborts the loop and propagates,
while the map keeps every mutation made before the failure.  Returns the final
map, the attempted save calls, and the propagated error, if any. -/
def smUpdateFilesGo {ε : Type} (saveFile : String → String → FileMeta → Except ε Unit)
    (mid : String) (now : Nat) :
    List (String × FileState) → List FileCommand →
    List (String × FileState) × List SaveCall × Option ε
  | files, [] => (files, [], none)
  | files, cmd :: rest =>
    if cmd.isComplete = false then smUpdateFilesGo saveFile mid now files rest
    else
      let existing := files.lookup cmd.filePath
      let fs : FileState :=
        { filePath := cmd.filePath
          content := cmd.content
          version := match existing with | some e => e.version + 1 | none => 1
          lastModified := now
          sourceMessageId := mid }
      let files2 := setAssoc files cmd.filePath fs
      let meta : FileMeta := ⟨fs.version, mid⟩
      match saveFile cmd.filePath cmd.content meta with
      | Except.ok _ =>
        let r := smUpdateFilesGo saveFile mid now files2 rest
        (r.1, ⟨cmd.filePath, cmd.content, meta⟩ :: r.2.1, r.2.2)
      | Except.error e => (files2, [⟨cmd.filePath, cmd.content, meta⟩], some e)

/-- `StreamingStateManager.updateFiles` (src/state-manager.ts lines 103-125). -/
def StreamingStateManager.updateFiles {ε : Type}
    (saveFile : String → String → FileMeta → Except ε Unit)
    (files : List (String × FileState)) (cb : CodeBlock) (now : Nat) :
    List (String × FileState) × List SaveCall × Option ε :=
  smUpdateFilesGo saveFile cb.messageId now files cb.commands

/-- `StreamingStateManager.getCleanedMessage` (src/state-manager.ts lines
60-66): `parsed.chatContent || (hasCodeStarted && !hasCodeEnded ? "" :
content)`. -/
def StreamingStateManager.getCleanedMessage (p : StreamingParser) (content : String) :
    String × StreamingParser :=
  let r := p.parseMessage content
  (if r.1.chatContent ≠ "" then r.1.chatContent
   else if r.1.hasCodeStarted = true ∧ r.1.hasCodeEnded = false then ""
   else content, r.2)

/-- The per-command loop of the store's `processMessage` (src/store.ts lines
104-136): incomplete commands are skipped; a complete command whose content
equals the existing entry's content is a no-op (no version bump, no storage
call); otherwise the bumped `FileState` is stored and `storage.saveFile` is
attempted inside `try`/`catch`, so a failure is recorded as a warning and the
loop continues.  Returns the new map, the attempted save calls and the caught
(swallowed) errors. -/
def storeProcessFilesGo {ε : Type} (saveFile : String → String → FileMeta → Except ε Unit)
    (mid : String) (now : Nat) :
    List (String × FileState) → List FileCommand →
    List (String × FileState) × List SaveCall × List ε
  | files, [] => (files, [], [])
  | files, cmd :: rest =>
    if cmd.isComplete = false then storeProcessFilesGo saveFile mid now files rest
    else
      let existing := files.lookup cmd.filePath
      if (match existing with | some e => e.content == cmd.content | none => false) then
        storeProcessFilesGo saveFile mid now files rest
      else
        let fs : FileState :=
          { filePath := cmd.filePath
            content := cmd.content
            version := match existing with | some e => e.version + 1 | none => 1
            lastModified := now
            sourceMessageId := mid }
        let files2 := setAssoc files cmd.filePath fs
        let meta : FileMeta := ⟨fs.version, mid⟩
        let r := storeProcessFilesGo saveFile mid now files2 rest
        match saveFile cmd.filePath cmd.content meta with
        | Except.ok _ => (r.1, ⟨cmd.filePath, cmd.content, meta⟩ :: r.2.1, r.2.2)
        | Except.error e => (r.1, ⟨cmd.filePath, cmd.content, meta⟩ :: r.2.1, e :: r.2.2)

/-- `MessageContentState` from src/store.ts lines 9-13. -/
structure MessageContentState where
  stableContent : String
  lastProcessedLength : Nat
  isStreamingCode : Bool
deriving DecidableEq

/-- The zustand store state of src/store.ts that the core actions touch:
`files`, `codeBlocks`, `isStreaming`, the parser instance, and the message
content cache. -/
structure StoreState where
  files : List (String × FileState)
  codeBlocks : List CodeBlock
  isStreaming : Bool
  parser : StreamingParser
  messageContentCache : List (String × MessageContentState)
deriving DecidableEq

/-- A freshly initialised store (`initialize`, src/store.ts lines 65-76). -/
def StoreState.init (cfg : Config) : StoreState :=
  { files := []
    codeBlocks := []
    isStreaming := false
    parser := StreamingParser.new cfg
    messageContentCache := [] }

/-- The code-block upsert of `processMessage` (src/store.ts lines 89-99):
replace the first block with the same message id, else push at the end. -/
def upsertCodeBlock : List CodeBlock → CodeBlock → List CodeBlock
  | [], cb => [cb]
  | b :: rest, cb =>
    if b.messageId = cb.messageId then cb :: rest else b :: upsertCodeBlock rest cb

/-- The store's `processMessage` (src/store.ts lines 79-146): parse the
observation with the long-lived parser; when no block has started, only
`isStreaming` is set to `false`; otherwise the code block is upserted, the
files map folded over the completed commands, and
`isStreaming := !parsed.hasCodeEnded`.  The second component collects the
storage errors that were caught and logged. -/
def StreamingStore.processMessage {ε : Type}
    (saveFile : String → String → FileMeta → Except ε Unit)
    (st : StoreState) (messageId : String) (content : String) (now : Nat) :
    StoreState × List ε :=
  let pr := st.parser.parseMessage content
  let parsed := pr.1
  if parsed.hasCodeStarted then
    let cb := StreamingParser.parseCodeBlock st.parser.config parsed.codeContent messageId
    let newBlocks := upsertCodeBlock st.codeBlocks cb
    let fr := storeProcessFilesGo saveFile cb.messageId now st.files cb.commands
    ({ st with
        parser := pr.2
        codeBlocks := newBlocks
        files := fr.1
        isStreaming := !parsed.hasCodeEnded }, fr.2.2)
  else
    ({ st with parser := pr.2, isStreaming := false }, [])

/-- The store's `getCleanedMessage` (src/store.ts lines 231-287): progressive
stable-content cache keyed by message id, early return of the cached stable
content when no new content arrived during code streaming, and the three
branches on the parse flags. -/
def StreamingStore.getCleanedMessage (st : StoreState) (content : String)
    (messageId : Option String) : String × StoreState :=
  let messageKey := messageId.getD "default"
  let ms0 := (st.messageContentCache.lookup messageKey).getD ⟨"", 0, false⟩
  if content.length ≤ ms0.lastProcessedLength ∧ ms0.isStreamingCode = true then
    (ms0.stableContent, st)
  else
    let pr := st.parser.parseMessage content
    let parsed := pr.1
    if parsed.hasCodeStarted = true ∧ parsed.hasCodeEnded = false then
      let stable2 :=
        if parsed.chatContent ≠ "" ∧ ms0.stableContent.length < parsed.chatContent.length then
          parsed.chatContent
        else ms0.stableContent
      (stable2,
        { st with
            parser := pr.2
            messageContentCache :=
              setAssoc st.messageContentCache messageKey ⟨stable2, content.length, true⟩ })
    else if parsed.hasCodeStarted = true ∧ parsed.hasCodeEnded = true then
      let stable2 := if parsed.chatContent ≠ "" then parsed.chatContent else content
      (stable2,
        { st with
            parser := pr.2
            messageContentCache :=
              setAssoc st.messageContentCache messageKey ⟨stable2, content.length, false⟩ })
    else
      (content,
        { st with
            parser := pr.2
            messageContentCache :=
              setAssoc st.messageContentCache messageKey ⟨content, content.length, false⟩ })

/-- The loop invariant used for the first call on a fresh parser: `ended`
implies `started`, and before the start tag has completed the loop-local
`codeContent` is empty and the state cannot be in or past the tag. -/
def LoopInv (st : PState) (code : List Char) (started ended : Bool) : Prop :=
  (ended = true → started = true) ∧
  (started = false → code = [] ∧ st ≠ PState.inTag ∧ st ≠ PState.tagComplete)

example :
    ((StreamingParser.new DEFAULT_CONFIG).parseMessage "hi<ablo-code>X</ablo-code>").1 =
      ⟨"hi", "<ablo-code>X</ablo-code>", true, true⟩ := by decide

example :
    (parseAll (StreamingParser.new DEFAULT_CONFIG)
        ["hi<ablo-code>X", "hi<ablo-code>X</ablo-code>"]).1 =
      ⟨"", "hi<ablo-code>X</ablo-code>", false, true⟩ := by decide

example :
    (StreamingParser.parseCodeBlock DEFAULT_CONFIG
        "<ablo-code><ablo-write file_path=\"Button.tsx\">export it</ablo-write></ablo-code>"
        "msg-123").commands =
      [FileCommand.write "Button.tsx" "export it" true] := by decide

example :
    (StreamingParser.parseCodeBlock DEFAULT_CONFIG
        "<ablo-code><ablo-modify file_path=\"a.ts\" changes=\"tweak\">body</ablo-modify>"
        "msg-123") =
      ⟨"msg-123", "", [FileCommand.modify "a.ts" "tweak" "body" true], false⟩ := by decide

example :
    (StreamingParser.parseCodeBlock DEFAULT_CONFIG
        "<ablo-code><ablo-write file_path=\"a.ts\">trunc" "msg-1").commands =
      [FileCommand.write "a.ts" "trunc" false] := by decide

example :
    (StreamingStore.getCleanedMessage (StoreState.init DEFAULT_CONFIG)
        "<ablo-code>x" (some "m1")).1 = "" := by decide

example :
    (StreamingStateManager.getCleanedMessage (StreamingParser.new DEFAULT_CONFIG)
        "<ablo-code>x").1 = "" := by decide

theorem drop_cons_of_get? {l : List Char} {n : Nat} {c : Char} (h : l.get? n = some c) :
    l.drop n = c :: l.drop (n + 1) := by
  rw [List.get?_eq_getElem?] at h
  obtain ⟨hl, he⟩ := List.getElem?_eq_some.mp h
  rw [List.drop_eq_getElem_cons hl, he]

theorem lookup_setAssoc_self {β : Type} (t : List (String × β)) (k : String) (v : β) :
    (setAssoc t k v).lookup k = some v := by
  induction t with
  | nil => simp [setAssoc, List.lookup]
  | cons hd tl ih =>
    obtain ⟨k0, v0⟩ := hd
    by_cases hk : k0 = k
    · simp [setAssoc, hk, List.lookup]
    · simp only [setAssoc, if_neg hk, List.lookup]
      have : (k == k0) = false := by
        simp [beq_iff_eq]
        exact fun h => hk h.symm
      simp [this, ih]

theorem processChars_inv (cfg : Config) (fuel : Nat) :
    ∀ (st : PState) (buf : TokenBuffer) (chat code : List Char) (started ended : Bool),
    LoopInv st code started ended →
    LoopInv (processChars cfg fuel st buf chat code started ended).state
      (processChars cfg fuel st buf chat code started ended).code
      (processChars cfg fuel st buf chat code started ended).started
      (processChars cfg fuel st buf chat code started ended).ended := by
  induction fuel with
  | zero => intro st buf chat code started ended h; simpa [processChars] using h
  | succ fuel ih =>
    intro st buf chat code started ended h
    rw [processChars]
    cases hget : buf.content.get? buf.position with
    | none => simpa using h
    | some c =>
      cases st with
      | normal =>
        by_cases hc : c = '<'
        · simp only [if_pos hc]
          exact ih _ _ _ _ _ _ ⟨h.1, fun hs => ⟨(h.2 hs).1, by simp, by simp⟩⟩
        · simp only [if_neg hc]
          exact ih _ _ _ _ _ _ ⟨h.1, fun hs => ⟨(h.2 hs).1, by simp, by simp⟩⟩
      | potentialTagStart =>
        by_cases h1 : buf.potentialTag ++ [c] = cfg.startTag.data
        · simp only [if_pos h1]
          exact ih _ _ _ _ _ _ ⟨fun _ => rfl, fun hs => nomatch hs⟩
        · simp only [if_neg h1]
          by_cases h2 : (buf.potentialTag ++ [c]).isPrefixOf cfg.startTag.data
          · simp only [if_pos h2]
            exact ih _ _ _ _ _ _ ⟨h.1, fun hs => ⟨(h.2 hs).1, by simp, by simp⟩⟩
          · simp only [if_neg h2]
            exact ih _ _ _ _ _ _ ⟨h.1, fun hs => ⟨(h.2 hs).1, by simp, by simp⟩⟩
      | inTag =>
        have hstarted : started = true := by
          cases hs : started with
          | false => exact absurd rfl (h.2 hs).2.1
          | true => rfl
        by_cases h1 : c = '>' ∧ cfg.endTag.data.isSuffixOf (code ++ [c]) = true
        · simp only [if_pos h1]
          exact ih _ _ _ _ _ _ ⟨fun _ => hstarted, fun hs => by rw [hstarted] at hs; cases hs⟩
        · simp only [if_neg h1]
          exact ih _ _ _ _ _ _ ⟨fun he => hstarted, fun hs => by rw [hstarted] at hs; cases hs⟩
      | tagComplete =>
        have hstarted : started = true := by
          cases hs : started with
          | false => exact absurd rfl (h.2 hs).2.2
          | true => rfl
        exact ih _ _ _ _ _ _ ⟨fun _ => hstarted, fun hs => by rw [hstarted] at hs; cases hs⟩

theorem processChars_normal_no_lt (cfg : Config) (fuel : Nat) :
    ∀ (buf : TokenBuffer) (chat code : List Char) (started ended : Bool),
    buf.position ≤ buf.content.length →
    buf.content.length + 1 - buf.position ≤ fuel →
    (∀ c ∈ buf.content.drop buf.position, c ≠ '<') →
    processChars cfg fuel PState.normal buf chat code started ended =
      ⟨PState.normal, { buf with position := buf.content.length },
        chat ++ buf.content.drop buf.position, code, started, ended⟩ := by
  induction fuel with
  | zero =>
    intro buf chat code started ended hpos hfuel hrest
    omega
  | succ fuel ih =>
    intro buf chat code started ended hpos hfuel hrest
    rw [processChars]
    cases hget : buf.content.get? buf.position with
    | none =>
      have hlen : buf.content.length ≤ buf.position := List.get?_eq_none.mp hget
      have hpe : buf.position = buf.content.length := le_antisymm hpos hlen
      have hdrop : buf.content.drop buf.position = [] := by
        rw [hpe]; simp
      cases buf
      simp_all
    | some c =>
      have hlt : buf.position < buf.content.length := by
        rw [List.get?_eq_getElem?] at hget
        exact (List.getElem?_eq_some.mp hget).1
      have hdrop : buf.content.drop buf.position = c :: buf.content.drop (buf.position + 1) :=
        drop_cons_of_get? hget
      have hc : c ≠ '<' := hrest c (by rw [hdrop]; exact List.mem_cons_self _ _)
      simp only [if_neg hc]
      rw [ih { buf with position := buf.position + 1 } (chat ++ [c]) code started ended
        (by simpa using hlt) (by simp; omega)
        (by
          intro x hx
          exact hrest x (by rw [hdrop]; exact List.mem_cons_of_mem _ hx))]
      simp [hdrop]

/-- A `parseMessage` call made while the parser is in the `NORMAL` state with a
fully consumed buffer, on a text containing no `<` character: the whole text
becomes (trimmed) chat content and the parser stays quiescent. -/
theorem parseMessage_no_lt (p : StreamingParser) (s : String)
    (hst : p.state = PState.normal)
    (hpos : p.buffer.position = p.buffer.content.length)
    (hs : ∀ c ∈ s.data, c ≠ '<') :
    p.parseMessage s =
      (⟨jsTrim s, "", false, false⟩,
        ⟨p.config, PState.normal,
          { content := p.buffer.content ++ s.data,
            position := (p.buffer.content ++ s.data).length,
            potentialTag := p.buffer.potentialTag }⟩) := by
  obtain ⟨cfg, st, buf⟩ := p
  obtain ⟨content, position, pt⟩ := buf
  simp only at hst hpos
  subst hst
  subst hpos
  unfold StreamingParser.parseMessage processBuffer
  dsimp only
  have hrest : ∀ c ∈ (content ++ s.data).drop content.length, c ≠ '<' := by
    rw [List.drop_left]
    exact hs
  rw [processChars_normal_no_lt cfg _ _ _ _ _ _ (by simp) (by simp) hrest]
  simp [finishBuffer, List.drop_left, jsTrim]

theorem parseAll_no_lt (l : List String) :
    ∀ (p : StreamingParser) (T : String),
    p.state = PState.normal → p.buffer.position = p.buffer.content.length →
    (∀ s ∈ l, ∀ c ∈ s.data, c ≠ '<') → (∀ c ∈ T.data, c ≠ '<') →
    (parseAll p (l ++ [T])).1 = ⟨jsTrim T, "", false, false⟩ := by
  induction l with
  | nil =>
    intro p T hst hpos _ hT
    have := parseMessage_no_lt p T hst hpos hT
    simp only [List.nil_append, parseAll, this]
  | cons s l ih =>
    intro p T hst hpos hl hT
    have hns : ∀ c ∈ s.data, c ≠ '<' := hl s (List.mem_cons_self _ _)
    have hstep := parseMessage_no_lt p s hst hpos hns
    have hcons : ∃ a as, l ++ [T] = a :: as := by
      cases l with
      | nil => exact ⟨T, [], rfl⟩
      | cons x xs => exact ⟨x, xs ++ [T], rfl⟩
    obtain ⟨a, as, hla⟩ := hcons
    have hred : parseAll p ((s :: l) ++ [T]) = parseAll (p.parseMessage s).2 (l ++ [T]) := by
      show parseAll p (s :: (l ++ [T])) = _
      rw [hla]
      simp only [parseAll]
    rw [hred]
    exact ih (p.parseMessage s).2 T (by rw [hstep]) (by rw [hstep]) (fun t ht => hl t (List.mem_cons_of_mem _ ht)) hT

theorem loopInv_init : LoopInv PState.normal [] false false := by
  constructor
  · intro h
    exact nomatch h
  · intro _
    refine ⟨rfl, by simp, by simp⟩

theorem finishBuffer_inv (r : LoopResult) (h : LoopInv r.state r.code r.started r.ended) :
    ((finishBuffer r).1.hasCodeEnded = true → (finishBuffer r).1.hasCodeStarted = true) ∧
    ((finishBuffer r).1.hasCodeStarted = false → (finishBuffer r).1.codeContent = "") := by
  obtain ⟨st, buf, chat, code, started, ended⟩ := r
  obtain ⟨h1, h2⟩ := h
  simp only at h1 h2
  unfold finishBuffer
  dsimp only
  by_cases hp : st = PState.potentialTagStart
  · simp [hp]
  · rw [if_neg hp]
    by_cases hi : st = PState.inTag ∧ ended = false
    · rw [if_pos hi]
      simp
    · rw [if_neg hi]
      cases ended with
      | true =>
        rw [if_pos rfl]
        dsimp only
        constructor
        · intro _
          exact h1 rfl
        · intro hs
          rw [(h2 hs).1]
      | false =>
        rw [if_neg (by decide)]
        dsimp only
        constructor
        · intro hfalse
          exact nomatch hfalse
        · intro hs
          rw [(h2 hs).1]

/-- C4: every `ParsedMessage` produced by the first `parseMessage` call on a
fresh parser satisfies the invariant: `hasCodeEnded` implies `hasCodeStarted`,
and when `hasCodeStarted` is false the `codeContent` is empty.  (On later
calls of a sequence the invariant can fail, see the counterexample.) -/
theorem parseMessage_first_call_invariant (cfg : Config) (content : String) :
    (((StreamingParser.new cfg).parseMessage content).1.hasCodeEnded = true →
      ((StreamingParser.new cfg).parseMessage content).1.hasCodeStarted = true) ∧
    (((StreamingParser.new cfg).parseMessage content).1.hasCodeStarted = false →
      ((StreamingParser.new cfg).parseMessage content).1.codeContent = "") := by
  unfold StreamingParser.parseMessage StreamingParser.new processBuffer
  dsimp only
  exact finishBuffer_inv _ (processChars_inv _ _ _ _ _ _ _ _ loopInv_init)

/-- C4 witness: the theorem applied at the default config and a concrete
message whose block completes within the first call. -/
theorem parseMessage_first_call_invariant_witness :
    ((StreamingParser.new DEFAULT_CONFIG).parseMessage "a<ablo-code>b</ablo-code>").1.hasCodeStarted = true :=
  (parseMessage_first_call_invariant DEFAULT_CONFIG "a<ablo-code>b</ablo-code>").1 (by decide)

/-- C4 counterexample: on the second call of a successive-call sequence (the
second call passing the full accumulated text, as the claim allows), the
returned message has `hasCodeEnded = true` with `hasCodeStarted = false` and a
non-empty `codeContent`, violating both parts of the claimed invariant. -/
theorem parseMessage_invariant_counterexample :
    (parseAll (StreamingParser.new DEFAULT_CONFIG)
        ["hi<ablo-code>X", "hi<ablo-code>X</ablo-code>"]).1.hasCodeEnded = true ∧
    (parseAll (StreamingParser.new DEFAULT_CONFIG)
        ["hi<ablo-code>X", "hi<ablo-code>X</ablo-code>"]).1.hasCodeStarted = false ∧
    (parseAll (StreamingParser.new DEFAULT_CONFIG)
        ["hi<ablo-code>X", "hi<ablo-code>X</ablo-code>"]).1.codeContent ≠ "" := by
  decide

/-- C1: restricted convergence.  For texts containing no `<` character, a
single one-shot `parseMessage` on a fresh parser agrees with the final result
of feeding any sequence of `<`-free observations ending in the full text
(in particular, the growing prefixes of the text, each call passing the
accumulated text observed so far).  The unrestricted claim is false, see the
counterexample. -/
theorem parseMessage_converges_no_tag_char (cfg : Config) (l : List String) (T : String)
    (hl : ∀ s ∈ l, ∀ c ∈ s.data, c ≠ '<') (hT : ∀ c ∈ T.data, c ≠ '<') :
    (parseAll (StreamingParser.new cfg) (l ++ [T])).1 =
      ((StreamingParser.new cfg).parseMessage T).1 := by
  rw [parseAll_no_lt l (StreamingParser.new cfg) T rfl rfl hl hT]
  rw [parseMessage_no_lt (StreamingParser.new cfg) T rfl rfl hT]

/-- C1 witness: the convergence theorem applied to the prefix sequence
`["he", "hello"]` of the text `"hello"`. -/
theorem parseMessage_converges_no_tag_char_witness :
    (parseAll (StreamingParser.new DEFAULT_CONFIG) (["he"] ++ ["hello"])).1 =
      ((StreamingParser.new DEFAULT_CONFIG).parseMessage "hello").1 :=
  parseMessage_converges_no_tag_char DEFAULT_CONFIG ["he"] "hello" (by decide) (by decide)

/-- C1 counterexample: for `T = "hi<ablo-code>X</ablo-code>"`, feeding the
growing prefixes `"hi<ablo-code>X"` then `T` (each call passing the
accumulated text observed so far) yields a final result that differs from the
one-shot parse of `T` in `chatContent`, `codeContent` and `hasCodeStarted`:
`parseMessage` appends every argument to its internal buffer, so the re-sent
text is processed twice. -/
theorem parseMessage_convergence_counterexample :
    (parseAll (StreamingParser.new DEFAULT_CONFIG)
        ["hi<ablo-code>X", "hi<ablo-code>X</ablo-code>"]).1 =
      ⟨"", "hi<ablo-code>X</ablo-code>", false, true⟩ ∧
    ((StreamingParser.new DEFAULT_CONFIG).parseMessage "hi<ablo-code>X</ablo-code>").1 =
      ⟨"hi", "<ablo-code>X</ablo-code>", true, true⟩ ∧
    (parseAll (StreamingParser.new DEFAULT_CONFIG)
        ["hi<ablo-code>X", "hi<ablo-code>X</ablo-code>"]).1 ≠
      ((StreamingParser.new DEFAULT_CONFIG).parseMessage "hi<ablo-code>X</ablo-code>").1 := by
  decide

/-- C7: amended.  The `StreamingParser` constructor performs no validation at
all: for every configuration — including ones with empty tag strings or
`startTag = endTag` — construction succeeds, producing the initial parser
state, and parsing proceeds (here shown on any `<`-free text).  No
configuration is rejected at construction time. -/
theorem constructor_accepts_any_config (cfg : Config) (content : String)
    (h : ∀ c ∈ content.data, c ≠ '<') :
    StreamingParser.new cfg =
      ⟨cfg, PState.normal, ⟨[], 0, []⟩⟩ ∧
    ((StreamingParser.new cfg).parseMessage content).1 =
      ⟨jsTrim content, "", false, false⟩ := by
  refine ⟨rfl, ?_⟩
  rw [parseMessage_no_lt (StreamingParser.new cfg) content rfl rfl h]

/-- C7 witness: the no-validation theorem applied to a configuration with
`startTag = endTag` and empty element tags. -/
theorem constructor_accepts_any_config_witness :
    StreamingParser.new ⟨"<t>", "<t>", "", "", ""⟩ =
      ⟨⟨"<t>", "<t>", "", "", ""⟩, PState.normal, ⟨[], 0, []⟩⟩ ∧
    ((StreamingParser.new ⟨"<t>", "<t>", "", "", ""⟩).parseMessage "hi").1 =
      ⟨jsTrim "hi", "", false, false⟩ :=
  constructor_accepts_any_config ⟨"<t>", "<t>", "", "", ""⟩ "hi" (by decide)

/-- C7 counterexample: constructing a parser on a configuration violating the
spec invariant (`startTag = endTag`, empty element tags) is not rejected:
construction yields an ordinary parser and a subsequent `parseMessage` call
proceeds, so the misconfiguration is not surfaced at construction time. -/
theorem constructor_no_rejection_counterexample :
    StreamingParser.new ⟨"<x>", "<x>", "", "", ""⟩ =
      ⟨⟨"<x>", "<x>", "", "", ""⟩, PState.normal, ⟨[], 0, []⟩⟩ ∧
    ((StreamingParser.new ⟨"<x>", "<x>", "", "", ""⟩).parseMessage "hello").1 =
      ⟨"hello", "", false, false⟩ := by
  refine ⟨rfl, by decide⟩

theorem parseAttrQuoted1_spec (s v r : List Char)
    (h : parseAttrQuoted1 s = some (v, r)) :
    v ≠ [] ∧ ∀ c ∈ v, c ≠ '"' := by
  simp only [parseAttrQuoted1] at h
  split at h
  · exact nomatch h
  · split at h
    · rename_i hv _ _ _
      injection h with h'
      injection h' with h1 h2
      subst h1
      refine ⟨hv, fun c hc => ?_⟩
      have hp := List.mem_takeWhile_imp hc
      exact of_decide_eq_true hp
    · exact nomatch h

theorem parseAttrQuoted0_spec (s v r : List Char)
    (h : parseAttrQuoted0 s = some (v, r)) :
    ∀ c ∈ v, c ≠ '"' := by
  simp only [parseAttrQuoted0] at h
  split at h
  · injection h with h'
    injection h' with h1 h2
    subst h1
    intro c hc
    have hp := List.mem_takeWhile_imp hc
    exact of_decide_eq_true hp
  · exact nomatch h

theorem parseChangesThenGt_spec (r4 : List Char) (chOpt : Option (List Char)) (r5 : List Char)
    (h : parseChangesThenGt r4 = some (chOpt, r5)) :
    ∀ l, chOpt = some l → ∀ c ∈ l, c ≠ '"' := by
  simp only [parseChangesThenGt] at h
  split at h
  · rename_i chv rc hgrp
    split at h
    · injection h with h'
      injection h' with h1 h2
      subst h1
      intro l hl c hc
      injection hl with hl'
      subst hl'
      -- chv comes from parseAttrQuoted0 inside the group parse
      split at hgrp
      · exact nomatch hgrp
      · split at hgrp
        · exact nomatch hgrp
        · exact parseAttrQuoted0_spec _ _ _ hgrp c hc
    · split at h
      · injection h with h'
        injection h' with h1 h2
        subst h1
        intro l hl
        exact nomatch hl
      · exact nomatch h
  · split at h
    · injection h with h'
      injection h' with h1 h2
      subst h1
      intro l hl
      exact nomatch hl
    · exact nomatch h

theorem stringMk_ne_empty {l : List Char} (hl : l ≠ []) : String.mk l ≠ "" := by
  intro h
  apply hl
  have := congrArg String.data h
  simpa using this

theorem tryWriteAt_spec (cfg : Config) (s : List Char) (cmd : FileCommand) (rest : List Char)
    (h : tryWriteAt cfg s = some (cmd, rest)) :
    cmd.action = FileAction.write ∧ cmd.filePath ≠ "" ∧
      (∀ ch ∈ cmd.filePath.data, ch ≠ '"') ∧
      (∀ ch ∈ cmd.changes.data, ch ≠ '"') := by
  unfold tryWriteAt at h
  split at h
  · exact nomatch h
  · split at h
    · exact nomatch h
    · split at h
      · exact nomatch h
      · split at h
        · exact nomatch h
        · rename_i fp r4 hq
          split at h
          · dsimp only at h
            split at h
            · rename_i r5 body rest0 hsplit
              injection h with h'
              injection h' with h1 h2
              subst h1
              obtain ⟨hfp, hquote⟩ := parseAttrQuoted1_spec _ _ _ hq
              exact ⟨rfl, stringMk_ne_empty hfp, fun ch hc => hquote ch hc, fun ch hc => nomatch hc⟩
            · injection h with h'
              injection h' with h1 h2
              subst h1
              obtain ⟨hfp, hquote⟩ := parseAttrQuoted1_spec _ _ _ hq
              exact ⟨rfl, stringMk_ne_empty hfp, fun ch hc => hquote ch hc, fun ch hc => nomatch hc⟩
          · exact nomatch h

theorem tryModifyAt_spec (cfg : Config) (s : List Char) (cmd : FileCommand) (rest : List Char)
    (h : tryModifyAt cfg s = some (cmd, rest)) :
    cmd.action = FileAction.modify ∧ cmd.filePath ≠ "" ∧
      (∀ ch ∈ cmd.filePath.data, ch ≠ '"') ∧
      (∀ ch ∈ cmd.changes.data, ch ≠ '"') := by
  unfold tryModifyAt at h
  split at h
  · exact nomatch h
  · split at h
    · exact nomatch h
    · split at h
      · exact nomatch h
      · split at h
        · exact nomatch h
        · rename_i fp r4 hq
          split at h
          · exact nomatch h
          · rename_i chOpt r5 hch
            dsimp only at h
            split at h
            · rename_i r6 body rest0 hsplit
              injection h with h'
              injection h' with h1 h2
              subst h1
              obtain ⟨hfp, hquote⟩ := parseAttrQuoted1_spec _ _ _ hq
              refine ⟨rfl, stringMk_ne_empty hfp, fun ch hc => hquote ch hc, fun ch hc => ?_⟩
              cases hcho : chOpt with
              | none => rw [hcho] at hc; exact nomatch hc
              | some l =>
                rw [hcho] at hc
                exact parseChangesThenGt_spec _ _ _ hch l hcho ch hc
            · injection h with h'
              injection h' with h1 h2
              subst h1
              obtain ⟨hfp, hquote⟩ := parseAttrQuoted1_spec _ _ _ hq
              refine ⟨rfl, stringMk_ne_empty hfp, fun ch hc => hquote ch hc, fun ch hc => ?_⟩
              cases hcho : chOpt with
              | none => rw [hcho] at hc; exact nomatch hc
              | some l =>
                rw [hcho] at hc
                exact parseChangesThenGt_spec _ _ _ hch l hcho ch hc

theorem findMatchFrom_forall {Q : FileCommand → Prop}
    (tryAt : List Char → Option (FileCommand × List Char))
    (htry : ∀ s cmd rest, tryAt s = some (cmd, rest) → Q cmd) :
    ∀ (s : List Char) (cmd : FileCommand) (rest : List Char),
    findMatchFrom tryAt s = some (cmd, rest) → Q cmd := by
  intro s
  induction s with
  | nil =>
    intro cmd rest h
    exact htry [] cmd rest h
  | cons c cs ih =>
    intro cmd rest h
    rw [findMatchFrom] at h
    cases htop : tryAt (c :: cs) with
    | some r =>
      rw [htop] at h
      injection h with h'
      subst h'
      exact htry _ _ _ htop
    | none =>
      rw [htop] at h
      exact ih cmd rest h

theorem scanCommands_forall {Q : FileCommand → Prop}
    (tryAt : List Char → Option (FileCommand × List Char))
    (htry : ∀ s cmd rest, tryAt s = some (cmd, rest) → Q cmd) :
    ∀ (fuel : Nat) (s : List Char) (cmd : FileCommand),
    cmd ∈ scanCommands tryAt fuel s → Q cmd := by
  intro fuel
  induction fuel with
  | zero =>
    intro s cmd h
    exact absurd h (by simp [scanCommands])
  | succ fuel ih =>
    intro s cmd h
    rw [scanCommands] at h
    cases hfind : findMatchFrom tryAt s with
    | none =>
      rw [hfind] at h
      exact absurd h (by simp)
    | some r =>
      rw [hfind] at h
      rcases List.mem_cons.mp h with h0 | h0
      · subst h0
        exact findMatchFrom_forall tryAt htry s r.1 r.2 (by rw [hfind])
      · exact ih r.2 cmd h0

/-- C3: amended.  `parseCodeBlock` returns the extracted commands grouped by
kind — all write commands (in document order among themselves) followed by all
modify commands (in document order among themselves) — not interleaved in
document order across both kinds.  See the counterexample for the original
claim. -/
theorem parseCodeBlock_groups_by_kind (cfg : Config) (content mid : String) :
    (StreamingParser.parseCodeBlock cfg content mid).commands =
      extractWriteCommands cfg content ++ extractModifyCommands cfg content ∧
    (∀ cmd ∈ extractWriteCommands cfg content, cmd.action = FileAction.write) ∧
    (∀ cmd ∈ extractModifyCommands cfg content, cmd.action = FileAction.modify) := by
  refine ⟨rfl, fun cmd hc => ?_, fun cmd hc => ?_⟩
  · exact (scanCommands_forall (tryWriteAt cfg)
      (fun s c r h => (tryWriteAt_spec cfg s c r h).1) _ _ cmd hc)
  · exact (scanCommands_forall (tryModifyAt cfg)
      (fun s c r h => (tryModifyAt_spec cfg s c r h).1) _ _ cmd hc)

/-- C3 witness: the grouping theorem applied at a concrete extraction. -/
theorem parseCodeBlock_groups_by_kind_witness :
    (FileCommand.write "b.ts" "y" true).action = FileAction.write :=
  (parseCodeBlock_groups_by_kind DEFAULT_CONFIG
      "<ablo-write file_path=\"b.ts\">y</ablo-write>" "m1").2.1
    (FileCommand.write "b.ts" "y" true) (by decide)

/-- C3 counterexample: a code content in which a complete modify element
occurs (at position 0) before a complete write element; `parseCodeBlock`
nevertheless emits the write command first, so the commands are not ordered by
position of occurrence across both kinds. -/
theorem parseCodeBlock_document_order_counterexample :
    (StreamingParser.parseCodeBlock DEFAULT_CONFIG
        ("<ablo-modify file_path=\"a.ts\" changes=\"c1\">x</ablo-modify>" ++
          "<ablo-write file_path=\"b.ts\">y</ablo-write>") "m1").commands =
      [FileCommand.write "b.ts" "y" true,
        FileCommand.modify "a.ts" "c1" "x" true] := by
  decide

/-- C8: extraction tolerates malformed input.  Every command that is emitted
carries a non-empty `filePath` (so an element lacking the attribute can never
surface as a command), and on a concrete block whose write element has no
`file_path` attribute the result is the empty command list with
`isComplete = false`.  The embedded extraction functions are total, so
extraction cannot throw. -/
theorem parseCodeBlock_never_throws :
    (∀ (cfg : Config) (content mid : String) (cmd : FileCommand),
      cmd ∈ (StreamingParser.parseCodeBlock cfg content mid).commands →
        cmd.filePath ≠ "") ∧
    (StreamingParser.parseCodeBlock DEFAULT_CONFIG
        "<ablo-code><ablo-write>no path</ablo-write>" "m1").commands = [] ∧
    (StreamingParser.parseCodeBlock DEFAULT_CONFIG
        "<ablo-code><ablo-write>no path</ablo-write>" "m1").isComplete = false := by
  refine ⟨fun cfg content mid cmd hc => ?_, by decide, by decide⟩
  rcases List.mem_append.mp hc with h0 | h0
  · exact (scanCommands_forall (tryWriteAt cfg)
      (fun s c r h => (tryWriteAt_spec cfg s c r h).2.1) _ _ cmd h0)
  · exact (scanCommands_forall (tryModifyAt cfg)
      (fun s c r h => (tryModifyAt_spec cfg s c r h).2.1) _ _ cmd h0)

/-- C8 witness: the no-pathless-command part applied at a concrete well-formed
extraction. -/
theorem parseCodeBlock_never_throws_witness :
    (FileCommand.write "w.ts" "z" true).filePath ≠ "" :=
  parseCodeBlock_never_throws.1 DEFAULT_CONFIG
    "<ablo-write file_path=\"w.ts\">z</ablo-write>" "m2"
    (FileCommand.write "w.ts" "z" true) (by decide)

/-- C9: every command returned by `parseCodeBlock` has a non-empty `filePath`
containing no double-quote character, and a `changes` string containing no
double-quote character; a modify element without a `changes` attribute yields
the empty `changes` string, shown on a concrete input. -/
theorem parseCodeBlock_filePath_invariants (cfg : Config) (content mid : String) :
    (∀ cmd ∈ (StreamingParser.parseCodeBlock cfg content mid).commands,
      cmd.filePath ≠ "" ∧ (∀ ch ∈ cmd.filePath.data, ch ≠ '"') ∧
        (∀ ch ∈ cmd.changes.data, ch ≠ '"')) ∧
    (StreamingParser.parseCodeBlock DEFAULT_CONFIG
        "<ablo-modify file_path=\"a.ts\">body</ablo-modify>" "m1").commands =
      [FileCommand.modify "a.ts" "" "body" true] := by
  refine ⟨fun cmd hc => ?_, by decide⟩
  rcases List.mem_append.mp hc with h0 | h0
  · have h := scanCommands_forall (tryWriteAt cfg)
      (fun s c r h => (tryWriteAt_spec cfg s c r h).2) _ _ cmd h0
    exact h
  · have h := scanCommands_forall (tryModifyAt cfg)
      (fun s c r h => (tryModifyAt_spec cfg s c r h).2) _ _ cmd h0
    exact h

/-- C9 witness: the invariants applied to a concrete modify command. -/
theorem parseCodeBlock_filePath_invariants_witness :
    (FileCommand.modify "a.ts" "" "body" true).filePath ≠ "" :=
  ((parseCodeBlock_filePath_invariants DEFAULT_CONFIG
      "<ablo-modify file_path=\"a.ts\">body</ablo-modify>" "m1").1
    (FileCommand.modify "a.ts" "" "body" true) (by decide)).1

/-- The store-side reconciliation loop skips a complete command whose content
equals the existing entry's content: no table change, no storage call, no
warning (src/store.ts lines 109-112). -/
theorem storeProcessFilesGo_skip_identical {ε : Type}
    (saveFile : String → String → FileMeta → Except ε Unit)
    (mid : String) (now : Nat) (files : List (String × FileState))
    (cmd : FileCommand) (e : FileState)
    (hc : cmd.isComplete = true)
    (hlk : files.lookup cmd.filePath = some e)
    (he : e.content = cmd.content) :
    storeProcessFilesGo saveFile mid now files [cmd] = (files, [], []) := by
  rw [storeProcessFilesGo]
  rw [if_neg (by simp [hc])]
  have hskip : (match files.lookup cmd.filePath with
      | some e => e.content == cmd.content
      | none => false) = true := by
    rw [hlk]
    simpa using he
  rw [if_pos (by simpa using hskip)]
  rfl

/-- C2: evaluation of `StreamingStateManager.updateFiles` at the failing
input.  The table already maps `test.js` to version 1 with content
`const x = 1;`; processing a complete write command with the *identical*
content nevertheless bumps the version to 2 and performs a storage call,
contradicting the claimed no-op (and the state manager's own test
`should not increment version if content unchanged`).  The store-side loop
(`storeProcessFilesGo`, src/store.ts) does implement the claimed no-op, see
`storeProcessFilesGo_skip_identical`. -/
theorem updateFiles_bumps_on_identical_content :
    (StreamingStateManager.updateFiles
        (fun _ _ _ => (Except.ok () : Except Unit Unit))
        [("test.js", ⟨"test.js", "const x = 1;", 1, 1, "msg-1"⟩)]
        ⟨"msg-2", "", [FileCommand.write "test.js" "const x = 1;" true], true⟩
        2).1.lookup "test.js" =
      some ⟨"test.js", "const x = 1;", 2, 2, "msg-2"⟩ ∧
    (StreamingStateManager.updateFiles
        (fun _ _ _ => (Except.ok () : Except Unit Unit))
        [("test.js", ⟨"test.js", "const x = 1;", 1, 1, "msg-1"⟩)]
        ⟨"msg-2", "", [FileCommand.write "test.js" "const x = 1;" true], true⟩
        2).2.1 =
      [⟨"test.js", "const x = 1;", ⟨2, "msg-2"⟩⟩] ∧
    storeProcessFilesGo (fun _ _ _ => (Except.ok () : Except Unit Unit)) "msg-2" 2
        [("test.js", ⟨"test.js", "const x = 1;", 1, 1, "msg-1"⟩)]
        [FileCommand.write "test.js" "const x = 1;" true] =
      ([("test.js", ⟨"test.js", "const x = 1;", 1, 1, "msg-1"⟩)], [], []) := by
  refine ⟨by decide, by decide, by decide⟩

/-- C6: amended.  In the store's reconciliation loop the in-memory table
result is independent of the storage behaviour (failures are caught and
swallowed, never propagated, and the update is not rolled back), and after
processing a complete command with fresh content the table maps its path to
the new `FileState`.  In `StreamingStateManager.updateFiles`, by contrast, the
storage error propagates (see the counterexample), though that table keeps the
update too. -/
theorem storeProcessFilesGo_single_fresh {ε : Type}
    (saveFile : String → String → FileMeta → Except ε Unit)
    (mid : String) (now : Nat) (files : List (String × FileState)) (cmd : FileCommand)
    (hc : cmd.isComplete = true)
    (hlk : files.lookup cmd.filePath = none) :
    (storeProcessFilesGo saveFile mid now files [cmd]).1 =
      setAssoc files cmd.filePath ⟨cmd.filePath, cmd.content, 1, now, mid⟩ := by
  rw [storeProcessFilesGo]
  rw [if_neg (by simp [hc])]
  simp only [hlk]
  cases saveFile cmd.filePath cmd.content ⟨1, mid⟩ <;> simp [storeProcessFilesGo]

theorem storeProcessFilesGo_single_update {ε : Type}
    (saveFile : String → String → FileMeta → Except ε Unit)
    (mid : String) (now : Nat) (files : List (String × FileState)) (cmd : FileCommand)
    (e : FileState)
    (hc : cmd.isComplete = true)
    (hlk : files.lookup cmd.filePath = some e)
    (hne : e.content ≠ cmd.content) :
    (storeProcessFilesGo saveFile mid now files [cmd]).1 =
      setAssoc files cmd.filePath ⟨cmd.filePath, cmd.content, e.version + 1, now, mid⟩ := by
  rw [storeProcessFilesGo]
  rw [if_neg (by simp [hc])]
  simp only [hlk]
  rw [if_neg (by simp [hne])]
  cases saveFile cmd.filePath cmd.content ⟨e.version + 1, mid⟩ <;> simp [storeProcessFilesGo]

/-- C6: amended.  In the store's reconciliation loop the in-memory table
result is independent of the storage behaviour (failures are caught and
swallowed, never propagated, and the update is not rolled back), and after
processing a complete command with fresh content the table maps its path to
the new `FileState`.  In `StreamingStateManager.updateFiles`, by contrast, the
storage error propagates (see the counterexample), though that table keeps the
update too. -/
theorem storeProcessFiles_storage_independent {ε : Type}
    (s1 s2 : String → String → FileMeta → Except ε Unit)
    (files : List (String × FileState)) (cmd : FileCommand) (mid : String) (now : Nat)
    (hc : cmd.isComplete = true)
    (hdiff : ∀ fs, files.lookup cmd.filePath = some fs → fs.content ≠ cmd.content) :
    (storeProcessFilesGo s1 mid now files [cmd]).1 =
      (storeProcessFilesGo s2 mid now files [cmd]).1 ∧
    (storeProcessFilesGo s1 mid now files [cmd]).1.lookup cmd.filePath =
      some ⟨cmd.filePath, cmd.content,
        (match files.lookup cmd.filePath with | some e => e.version + 1 | none => 1),
        now, mid⟩ := by
  cases hlk : files.lookup cmd.filePath with
  | none =>
    constructor
    · rw [storeProcessFilesGo_single_fresh s1 mid now files cmd hc hlk,
        storeProcessFilesGo_single_fresh s2 mid now files cmd hc hlk]
    · rw [storeProcessFilesGo_single_fresh s1 mid now files cmd hc hlk]
      simp only [hlk]
      exact lookup_setAssoc_self _ _ _
  | some e =>
    have hne := hdiff e hlk
    constructor
    · rw [storeProcessFilesGo_single_update s1 mid now files cmd e hc hlk hne,
        storeProcessFilesGo_single_update s2 mid now files cmd e hc hlk hne]
    · rw [storeProcessFilesGo_single_update s1 mid now files cmd e hc hlk hne]
      simp only [hlk]
      exact lookup_setAssoc_self _ _ _

/-- C6 witness: the theorem applied with an always-failing and an
always-succeeding storage on a concrete complete write command. -/
theorem storeProcessFiles_storage_independent_witness :
    (storeProcessFilesGo (fun _ _ _ => (Except.error () : Except Unit Unit)) "msg-1" 5 []
        [FileCommand.write "a.ts" "x" true]).1 =
      (storeProcessFilesGo (fun _ _ _ => (Except.ok () : Except Unit Unit)) "msg-1" 5 []
        [FileCommand.write "a.ts" "x" true]).1 ∧
    (storeProcessFilesGo (fun _ _ _ => (Except.error () : Except Unit Unit)) "msg-1" 5 []
        [FileCommand.write "a.ts" "x" true]).1.lookup "a.ts" =
      some ⟨"a.ts", "x", 1, 5, "msg-1"⟩ :=
  storeProcessFiles_storage_independent
    (fun _ _ _ => (Except.error () : Except Unit Unit))
    (fun _ _ _ => (Except.ok () : Except Unit Unit))
    [] (FileCommand.write "a.ts" "x" true) "msg-1" 5 rfl (fun _ h => nomatch h)

/-- C6 counterexample: in `StreamingStateManager.updateFiles` a failing
`storage.saveFile` is not caught: the error propagates to the caller (the
third component is `some ()`), refuting the claim for that cited symbol —
although the in-memory table does keep the new `FileState`. -/
theorem updateFiles_propagates_storage_error :
    (StreamingStateManager.updateFiles
        (fun _ _ _ => (Except.error () : Except Unit Unit)) []
        ⟨"msg-1", "", [FileCommand.write "a.ts" "x" true], true⟩ 5).2.2 = some () ∧
    (StreamingStateManager.updateFiles
        (fun _ _ _ => (Except.error () : Except Unit Unit)) []
        ⟨"msg-1", "", [FileCommand.write "a.ts" "x" true], true⟩ 5).1.lookup "a.ts" =
      some ⟨"a.ts", "x", 1, 5, "msg-1"⟩ := by
  refine ⟨by decide, by decide⟩

/-- C5: amended.  When the current parse shows a block started but not ended,
the parse produced no chat content, and no non-empty chat content is cached
for the message id, the store's `getCleanedMessage` returns the empty string
(the initial cached stable content) — not the raw input text.  See the
counterexample for the original claim. -/
theorem getCleanedMessage_streaming_no_chat (st : StoreState) (content : String)
    (mid : Option String)
    (hcache : ∀ ms, st.messageContentCache.lookup (mid.getD "default") = some ms →
      ms.stableContent = "")
    (hstart : (st.parser.parseMessage content).1.hasCodeStarted = true)
    (hend : (st.parser.parseMessage content).1.hasCodeEnded = false)
    (hchat : (st.parser.parseMessage content).1.chatContent = "") :
    (StreamingStore.getCleanedMessage st content mid).1 = "" := by
  have hstable :
      ((st.messageContentCache.lookup (mid.getD "default")).getD
        ⟨"", 0, false⟩).stableContent = "" := by
    cases hlk : st.messageContentCache.lookup (mid.getD "default") with
    | none => rfl
    | some ms => simpa using hcache ms hlk
  unfold StreamingStore.getCleanedMessage
  by_cases hearly : content.length ≤
      ((st.messageContentCache.lookup (mid.getD "default")).getD
        ⟨"", 0, false⟩).lastProcessedLength ∧
      ((st.messageContentCache.lookup (mid.getD "default")).getD
        ⟨"", 0, false⟩).isStreamingCode = true
  · rw [if_pos hearly]
    exact hstable
  · rw [if_neg hearly]
    rw [if_pos ⟨hstart, hend⟩]
    rw [if_neg (fun hcond => hcond.1 hchat)]
    exact hstable

/-- C5 witness: the theorem applied to a freshly initialised store and the
partial block text `<ablo-code>x`. -/
theorem getCleanedMessage_streaming_no_chat_witness :
    (StreamingStore.getCleanedMessage (StoreState.init DEFAULT_CONFIG)
        "<ablo-code>x" (some "m1")).1 = "" :=
  getCleanedMessage_streaming_no_chat (StoreState.init DEFAULT_CONFIG)
    "<ablo-code>x" (some "m1") (fun ms h => nomatch h) (by decide) (by decide) (by decide)

/-- C5 counterexample: on a fresh store (no chat content ever observed for the
id) with a parse showing a block started but not ended, `getCleanedMessage`
returns the empty string, not the raw input text; the state manager's variant
returns the empty string as well. -/
theorem getCleanedMessage_raw_fallback_counterexample :
    ((StoreState.init DEFAULT_CONFIG).parser.parseMessage "<ablo-code>x").1.hasCodeStarted = true ∧
    ((StoreState.init DEFAULT_CONFIG).parser.parseMessage "<ablo-code>x").1.hasCodeEnded = false ∧
    (StoreState.init DEFAULT_CONFIG).messageContentCache = [] ∧
    (StreamingStore.getCleanedMessage (StoreState.init DEFAULT_CONFIG)
        "<ablo-code>x" (some "m1")).1 = "" ∧
    (StreamingStore.getCleanedMessage (StoreState.init DEFAULT_CONFIG)
        "<ablo-code>x" (some "m1")).1 ≠ "<ablo-code>x" ∧
    (StreamingStateManager.getCleanedMessage (StreamingParser.new DEFAULT_CONFIG)
        "<ablo-code>x").1 = "" := by
  decide

/-- C10: when the parsed observation shows no code block started, the store's
`processMessage` leaves the files map, the code block list and the message
content cache unchanged, sets `isStreaming` to `false`, and swallows no
storage errors (none are attempted). -/
theorem processMessage_no_code_frame {ε : Type}
    (saveFile : String → String → FileMeta → Except ε Unit)
    (st : StoreState) (mid content : String) (now : Nat)
    (h : (st.parser.parseMessage content).1.hasCodeStarted = false) :
    (StreamingStore.processMessage saveFile st mid content now).1.files = st.files ∧
    (StreamingStore.processMessage saveFile st mid content now).1.codeBlocks = st.codeBlocks ∧
    (StreamingStore.processMessage saveFile st mid content now).1.messageContentCache =
      st.messageContentCache ∧
    (StreamingStore.processMessage saveFile st mid content now).1.isStreaming = false ∧
    (StreamingStore.processMessage saveFile st mid content now).2 = [] := by
  unfold StreamingStore.processMessage
  rw [if_neg (by simp [h])]
  exact ⟨rfl, rfl, rfl, rfl, rfl⟩

/-- C10 witness: the frame theorem applied to a fresh store and the plain
message `hello`. -/
theorem processMessage_no_code_frame_witness :
    (StreamingStore.processMessage (fun _ _ _ => (Except.ok () : Except Unit Unit))
        (StoreState.init DEFAULT_CONFIG) "m1" "hello" 0).1.files =
      (StoreState.init DEFAULT_CONFIG).files ∧
    (StreamingStore.processMessage (fun _ _ _ => (Except.ok () : Except Unit Unit))
        (StoreState.init DEFAULT_CONFIG) "m1" "hello" 0).1.codeBlocks =
      (StoreState.init DEFAULT_CONFIG).codeBlocks ∧
    (StreamingStore.processMessage (fun _ _ _ => (Except.ok () : Except Unit Unit))
        (StoreState.init DEFAULT_CONFIG) "m1" "hello" 0).1.messageContentCache =
      (StoreState.init DEFAULT_CONFIG).messageContentCache ∧
    (StreamingStore.processMessage (fun _ _ _ => (Except.ok () : Except Unit Unit))
        (StoreState.init DEFAULT_CONFIG) "m1" "hello" 0).1.isStreaming = false ∧
    (StreamingStore.processMessage (fun _ _ _ => (Except.ok () : Except Unit Unit))
        (StoreState.init DEFAULT_CONFIG) "m1" "hello" 0).2 = [] :=
  processMessage_no_code_frame (fun _ _ _ => (Except.ok () : Except Unit Unit))
    (StoreState.init DEFAULT_CONFIG) "m1" "hello" 0 (by decide)
